import Mathlib

/-!
Verification of the chunked-upload engine of the image-upload-backend service.

The definitions below are a shallow embedding of the Rust sources:
  - src/services/upload_service.rs   (chunk receiver, merge engine, progress)
  - src/utils/lock_utils.rs          (lock registry)
  - src/utils/validation_utils.rs    (validation helpers)
  - src/services/cleanup_service.rs  (janitor temp-file pass)
  - src/handlers/upload_handlers.rs  (admission / active-uploads counter)

The filesystem is modelled as a partial map from path strings to byte lists;
directories are not modelled (directory creation in the source is idempotent
and does not affect any file content read or written by the functions
embedded here).  Byte streams are modelled as the full list of bytes they
deliver; wall-clock instants are modelled as natural numbers.
-/

set_option autoImplicit false

namespace ImageUploadBackend

/-- Byte strings: each element is one byte value. -/
abbrev Bytes := List Nat

/-- The filesystem: a partial map from absolute path strings to file contents. -/
abbrev Fs := String → Option Bytes

/-- The empty filesystem. -/
def Fs.empty : Fs := fun _ => none

/-- Content of the file at `p`, or `[]` when absent (a freshly created file). -/
def Fs.read (fs : Fs) (p : String) : Bytes := (fs p).getD []

/-- Create or truncate the file at `p` with content `c`. -/
def Fs.write (fs : Fs) (p : String) (c : Bytes) : Fs :=
  fun q => if q = p then some c else fs q

/-- Delete the file at `p` (Rust `std::fs::remove_file`). -/
def Fs.remove (fs : Fs) (p : String) : Fs :=
  fun q => if q = p then none else fs q

/-- Append `c` to the file at `p` (Rust `std::io::copy` onto an open handle). -/
def Fs.appendTo (fs : Fs) (p : String) (c : Bytes) : Fs :=
  fs.write p (fs.read p ++ c)

/-- Atomic rename (Rust `std::fs::rename`): the destination takes the source's
content and the source disappears. -/
def Fs.rename (fs : Fs) (src dst : String) : Fs :=
  match fs src with
  | some c => (fs.remove src).write dst c
  | none => fs

/-- Does `p` match `l` at its head?  (Character-list matcher used to embed
Rust `str::contains` / `str::ends_with`.) -/
def leadMatch : List Char → List Char → Bool
  | [], _ => true
  | _ :: _, [] => false
  | p :: ps, c :: cs => (p == c) && leadMatch ps cs

/-- Does `p` occur as a contiguous run inside `l`? -/
def hasSub (p : List Char) : List Char → Bool
  | [] => p.isEmpty
  | c :: cs => leadMatch p (c :: cs) || hasSub p cs

/-- Rust `str::contains` with a string pattern. -/
def str_contains (s pat : String) : Bool := hasSub pat.toList s.toList

/-- Rust `str::ends_with` with a string pattern. -/
def str_ends_with (s pat : String) : Bool :=
  leadMatch pat.toList.reverse s.toList.reverse

/-- `validation_utils::is_valid_filename`:
`!filename.contains("..") && !filename.contains("//")`. -/
def is_valid_filename (filename : String) : Bool :=
  !(str_contains filename "..") && !(str_contains filename "//")

/-- `validation_utils::is_valid_file_size`: `size <= max_size`. -/
def is_valid_file_size (size max_size : Nat) : Bool := size ≤ max_size

/-- `ServerConfig::default().max_file_size` = 10 GiB. -/
def default_max_file_size : Nat := 10 * 1024 * 1024 * 1024

/-- One character replacement pass, as in Rust `str::replace(char, "_")`. -/
def replaceChar (c r : Char) (s : String) : String :=
  String.mk (s.toList.map fun x => if x = c then r else x)

/-- `rel_path.replace('/', "_").replace('\\', "_")` from
`handle_chunk_upload` / `merge_chunks_internal`. -/
def safe_path (rel : String) : String :=
  replaceChar '\\' '_' (replaceChar '/' '_' rel)

/-- The part-file name for chunk `i`:
`"{safe_path}_{filename}.part{i}"` or `"{filename}.part{i}"`. -/
def temp_filename (filename : String) (rel : Option String) (i : Nat) : String :=
  match rel with
  | some rp => safe_path rp ++ "_" ++ filename ++ ".part" ++ Nat.repr i
  | none => filename ++ ".part" ++ Nat.repr i

/-- The deterministic part path `"{temp_dir}/{temp_filename}"`. -/
def chunk_filepath (temp_dir filename : String) (rel : Option String) (i : Nat) : String :=
  temp_dir ++ "/" ++ temp_filename filename rel i

/-- `models::ChunkUploadResponse`. -/
structure ChunkUploadResponse where
  success : Bool
  message : String
  chunk_number : Nat
  total_chunks : Nat
  filename : String
  next_chunk : Option Nat
deriving DecidableEq

/-- Outcome of `handle_chunk_upload`, by the branch of the source it exits
through. -/
inductive ChunkOutcome where
  /-- `is_valid_filename` failed: HTTP 400, no filesystem access. -/
  | rejectedBadFilename
  /-- declared `total_size` over the limit: HTTP 400, no filesystem access. -/
  | rejectedTooLarge
  /-- the part file already existed: HTTP 200 short-circuit. -/
  | chunkAlreadyExists (resp : ChunkUploadResponse)
  /-- the multipart payload held no file field: HTTP 400. -/
  | noFileField
  /-- the chunk body was streamed into a fresh part file: HTTP 200. -/
  | uploaded (resp : ChunkUploadResponse)
deriving DecidableEq

/-- The size-limit rejection test of `handle_chunk_upload`: only a parsed
`total_size` query parameter is checked, against the default config limit. -/
def chunk_size_rejected (total_size : Option Nat) (max_file_size : Nat) : Bool :=
  match total_size with
  | some ts => !(is_valid_file_size ts max_file_size)
  | none => false

/-- `upload_service::handle_chunk_upload`, with the multipart body modelled as
the optional byte list it delivers.  Mirrors the source order: filename
validation, size validation, temp-dir creation (not visible on the file map),
part-path existence short-circuit, then streaming the body into the part. -/
def handle_chunk_upload (chunk_number total_chunks : Nat) (filename module : String)
    (relative_path : Option String) (total_size : Option Nat) (max_file_size : Nat)
    (body : Option Bytes) (fs : Fs) : ChunkOutcome × Fs :=
  if !(is_valid_filename filename) then
    (.rejectedBadFilename, fs)
  else if chunk_size_rejected total_size max_file_size then
    (.rejectedTooLarge, fs)
  else
    let temp_dir := "./temp/" ++ module
    let temp_filepath := chunk_filepath temp_dir filename relative_path chunk_number
    if (fs temp_filepath).isSome then
      (.chunkAlreadyExists
        { success := true, message := "分块已存在", chunk_number := chunk_number,
          total_chunks := total_chunks, filename := filename,
          next_chunk := some (chunk_number + 1) }, fs)
    else
      match body with
      | none => (.noFileField, fs)
      | some b =>
        (.uploaded
          { success := true, message := "分块上传成功", chunk_number := chunk_number,
            total_chunks := total_chunks, filename := filename,
            next_chunk := if chunk_number + 1 < total_chunks then some (chunk_number + 1) else none },
         fs.write temp_filepath b)

/-- Result of `merge_chunks_internal`: either the filesystem after the rename
together with the merged byte count, or the index of the first missing chunk
(the source error string 分块 i 不存在 names exactly this index) together with
the filesystem after the temp merge file was deleted. -/
inductive MergeResult where
  | ok (fs : Fs) (total_merged_size : Nat)
  | missingChunk (i : Nat) (fs : Fs)

/-- The per-chunk loop of `merge_chunks_internal`: for each index, look up the
part file; on a miss delete the temp merge file and fail naming the index;
on a hit append its content to the temp merge file, then delete the part. -/
def mergeGo (temp_dir filename : String) (rel : Option String) (tmp_final : String) :
    List Nat → Fs → Nat → MergeResult
  | [], fs, size => .ok fs size
  | i :: rest, fs, size =>
    match fs (chunk_filepath temp_dir filename rel i) with
    | none => .missingChunk i (fs.remove tmp_final)
    | some content =>
      mergeGo temp_dir filename rel tmp_final rest
        ((fs.appendTo tmp_final content).remove (chunk_filepath temp_dir filename rel i))
        (size + content.length)

/-- `upload_service::merge_chunks_internal`: create/truncate the temp merge
file `"{final_path}.tmp.{token}"`, run the chunk loop over `0..total_chunks`,
fsync (no visible effect on the file map), then atomically rename the temp
file onto the destination. -/
def merge_chunks_internal (final_path temp_dir filename : String) (rel : Option String)
    (total_chunks : Nat) (tmp_token : String) (fs : Fs) : MergeResult :=
  let tmp_final := final_path ++ ".tmp." ++ tmp_token
  match mergeGo temp_dir filename rel tmp_final (List.range total_chunks) (fs.write tmp_final []) 0 with
  | .missingChunk i fs2 => .missingChunk i fs2
  | .ok fs2 size => .ok (fs2.rename tmp_final final_path) size

/-- `models::UploadProgress` (the two `f64` fields carry no proof content and
are embedded as `Float`). -/
structure UploadProgress where
  filename : String
  module : String
  uploaded_chunks : Nat
  total_chunks : Nat
  total_size : Nat
  uploaded_size : Nat
  speed : Float
  estimated_time : Float

/-- The `UploadManager` progress map: logical key to snapshot plus the
`Instant` it was stored at. -/
abbrev PMap := String → Option (UploadProgress × Nat)

/-- `UploadManager::update_progress`. -/
def update_progress (pm : PMap) (key : String) (p : UploadProgress) (now : Nat) : PMap :=
  fun k => if k = key then some (p, now) else pm k

/-- `UploadManager::get_progress`. -/
def get_progress (pm : PMap) (key : String) : Option UploadProgress :=
  (pm key).map Prod.fst

/-- `UploadManager::remove_progress`. -/
def remove_progress (pm : PMap) (key : String) : PMap :=
  fun k => if k = key then none else pm k

/-- `upload_service::get_upload_progress`: queries the manager at the key
`"{module}_{filename}"`. -/
def get_upload_progress (module filename : String) (pm : PMap) : Option UploadProgress :=
  get_progress pm (module ++ "_" ++ filename)

/-- The shared in-memory state touched by the chunk and merge operations:
the filesystem and the `UploadManager` progress map. -/
structure Sys where
  fs : Fs
  progresses : PMap

/-- `handle_chunk_upload` lifted to the full state.  The source function never
calls `UploadManager::update_progress` on any path, so the progress map is
unchanged by construction. -/
def handle_chunk_upload_sys (chunk_number total_chunks : Nat) (filename module : String)
    (relative_path : Option String) (total_size : Option Nat) (max_file_size : Nat)
    (body : Option Bytes) (sys : Sys) : ChunkOutcome × Sys :=
  let r := handle_chunk_upload chunk_number total_chunks filename module relative_path
      total_size max_file_size body sys.fs
  (r.1, { sys with fs := r.2 })

/-- `models::ChunkUploadRequest`, the JSON body of `POST upload/merge`. -/
structure ChunkUploadRequest where
  chunk_number : Nat
  total_chunks : Nat
  filename : String
  module : String
  chunk_size : Nat
  relative_path : Option String
  file_hash : Option String
  chunk_hash : Option String

/-- The per-file lock key of `merge_chunk_files`:
`format!("{}_{}", info.module, info.filename)` — `relative_path` is not used. -/
def merge_lock_key (info : ChunkUploadRequest) : String :=
  info.module ++ "_" ++ info.filename

/-- The progress key cleared by `merge_chunk_files` after a successful merge:
`format!("{}_{}", info.module, info.filename)` — `relative_path` is not used. -/
def merge_progress_key (info : ChunkUploadRequest) : String :=
  info.module ++ "_" ++ info.filename

/-- Result of one `merge_chunk_files` call, without the filesystem (which
lives in `Sys`). -/
inductive MergeCall where
  | ok (total_merged_size : Nat)
  | missingChunk (i : Nat)
deriving DecidableEq

/-- The destination path built by `merge_chunk_files`:
`./uploads/{module}/[relative_path/]{filename}`. -/
def merge_final_filepath (info : ChunkUploadRequest) : String :=
  match info.relative_path with
  | some rp => "./uploads/" ++ info.module ++ "/" ++ rp ++ "/" ++ info.filename
  | none => "./uploads/" ++ info.module ++ "/" ++ info.filename

/-- `upload_service::merge_chunk_files` on the shared state: build the final
path under `./uploads/{module}` (joining `relative_path` when present), take
the per-key lock (serializing merges with the same `merge_lock_key`), run
`merge_chunks_internal`, and on success clear the progress entry for
`merge_progress_key info`. -/
def merge_chunk_files (info : ChunkUploadRequest) (tmp_token : String) (sys : Sys) :
    MergeCall × Sys :=
  match merge_chunks_internal (merge_final_filepath info) ("./temp/" ++ info.module)
      info.filename info.relative_path info.total_chunks tmp_token sys.fs with
  | .missingChunk i fs2 => (.missingChunk i, { sys with fs := fs2 })
  | .ok fs2 size =>
    (.ok size, { fs := fs2, progresses := remove_progress sys.progresses (merge_progress_key info) })

/-- `lock_utils::FileLockEntry` (the `Arc<Mutex<()>>` handle is identified
with its registry slot; the claims in scope only concern the slot's presence
and its usage metadata). -/
structure FileLockEntry where
  last_used : Nat
  access_count : Nat
deriving DecidableEq

/-- The `FILE_LOCKS` registry: an association list standing for the
`HashMap<String, FileLockEntry>` (list order stands for drain order). -/
abbrev LockMap := List (String × FileLockEntry)

/-- The hard-coded registry bound of `get_file_lock` (`max_memory_locks`,
matching `ServerConfig::default().max_memory_locks`). -/
def max_memory_locks : Nat := 10000

/-- `(max_memory_locks * 8) / 10`: how many entries eviction keeps. -/
def lock_retain_count : Nat := max_memory_locks * 8 / 10

/-- One step of the stable ascending sort on `last_used`
(`entries.sort_by(|a, b| a.1.last_used.cmp(&b.1.last_used))`). -/
def insertByLastUsed (x : String × FileLockEntry) :
    List (String × FileLockEntry) → List (String × FileLockEntry)
  | [] => [x]
  | y :: ys =>
    if x.2.last_used < y.2.last_used then x :: y :: ys else y :: insertByLastUsed x ys

/-- Stable sort ascending by `last_used`. -/
def sortByLastUsed : List (String × FileLockEntry) → List (String × FileLockEntry)
  | [] => []
  | x :: xs => insertByLastUsed x (sortByLastUsed xs)

/-- The size-triggered eviction body of `get_file_lock`: drain all entries,
sort ascending by `last_used`, and re-insert the first `lock_retain_count`
of the sorted list (`entries.into_iter().take(retain_count)`). -/
def evict_locks (m : LockMap) : LockMap :=
  (sortByLastUsed m).take lock_retain_count

/-- Association-list lookup, standing for `HashMap::get`. -/
def lookupLock (k : String) : LockMap → Option FileLockEntry
  | [] => none
  | (k2, e) :: rest => if k2 = k then some e else lookupLock k rest

/-- Association-list insert-or-update, standing for the `entry(..).or_insert_with`
slot of `HashMap`. -/
def updateLock (k : String) (e : FileLockEntry) : LockMap → LockMap
  | [] => [(k, e)]
  | (k2, e2) :: rest =>
    if k2 = k then (k, e) :: rest else (k2, e2) :: updateLock k e rest

/-- `lock_utils::get_file_lock`: evict when the registry has reached
`max_memory_locks` entries, then fetch-or-create the entry for `key` and mark
it used (`update_usage`: `last_used := now`, `access_count += 1`).  Returns
the handed-out entry and the new registry. -/
def get_file_lock (key : String) (now : Nat) (m : LockMap) : FileLockEntry × LockMap :=
  let m1 := if max_memory_locks ≤ m.length then evict_locks m else m
  let e0 := (lookupLock key m1).getD { last_used := now, access_count := 0 }
  let e1 : FileLockEntry := { last_used := now, access_count := e0.access_count + 1 }
  (e1, updateLock key e1 m1)

/-- One file found by the janitor's temp scan: its name, its age in seconds,
and its size in bytes. -/
structure TempFile where
  name : String
  age_secs : Nat
  size : Nat
deriving DecidableEq

/-- The deletion test of `cleanup_temp_files_internal`: age strictly above 24
hours, and the name ends with `".part"`, or contains `".part"`, or contains
`".tmp."`. -/
def cleanup_should_delete (f : TempFile) : Bool :=
  (24 * 3600 < f.age_secs) &&
    (str_ends_with f.name ".part" || str_contains f.name ".part" || str_contains f.name ".tmp.")

/-- `cleanup_service::cleanup_temp_files_internal` over the files of the temp
area: returns `(cleaned_count, bytes_freed)` and the surviving files. -/
def cleanup_temp_files (files : List TempFile) : (Nat × Nat) × List TempFile :=
  let deleted := files.filter cleanup_should_delete
  ((deleted.length, (deleted.map TempFile.size).sum),
   files.filter fun f => !(cleanup_should_delete f))

/-- Modelled from the spec: the part/temp-merge naming convention —
a `.part` suffix followed by at least one digit (the chunk index), or a
`".tmp."` segment.  Used only to compare the janitor's actual deletion test
against the spec's wording. -/
def spec_naming_convention (name : String) : Bool :=
  (let r := name.toList.reverse
   let ds := r.takeWhile fun c => c.isDigit
   (!ds.isEmpty) && leadMatch ".part".toList.reverse (r.drop ds.length)) ||
  str_contains name ".tmp."

/-- Did `merge_chunk_files` return `Ok` (handler takes the success arm) or
`Err` (handler takes the error arm)? -/
inductive MergeOutcome where
  | success
  | failure
deriving DecidableEq

/-- The `ACTIVE_UPLOADS` trace of `upload_handlers::merge_chunks`:
`fetch_add(1)` on entry; `fetch_sub(1)` appears only in the `Err` arm of the
match on `merge_chunk_files` — the `Ok` arm returns without decrementing. -/
def merge_chunks_active_after (active : Nat) (outcome : MergeOutcome) : Nat :=
  let a := active + 1
  match outcome with
  | .success => a
  | .failure => a - 1

/-- The `ACTIVE_UPLOADS` trace of `upload_handlers::upload_chunk` (and
`upload_file`): `fetch_add(1)` before the service call and `fetch_sub(1)`
after it, regardless of the service result. -/
def upload_chunk_active_after (active : Nat) (_succeeded : Bool) : Nat :=
  (active + 1) - 1

/-! ### A concrete lock-registry scenario

A registry filled with 9999 distinct stale keys inserted at instants
`0..9998`, followed by a merge for `("m", "f")` that fetches its lock at
instant 9999.  The next `get_file_lock` (for a fresh key, at instant 10000)
finds the registry at the configured maximum and triggers eviction. -/

/-- The merge request whose lock is held while eviction fires. -/
def held_merge_request : ChunkUploadRequest :=
  { chunk_number := 0, total_chunks := 1, filename := "f", module := "m",
    chunk_size := 0, relative_path := none, file_hash := none, chunk_hash := none }

/-- The lock key of the in-progress merge: `"m_f"`. -/
def held_lock_key : String := merge_lock_key held_merge_request

/-- The `i`-th stale registry key: `"k{i}"` (first character `'k'`, so it can
never collide with `"m_f"` or `"newkey"`). -/
def lock_key_of_nat (i : Nat) : String := String.mk ('k' :: (Nat.repr i).data)

/-- A registry entry last touched at instant `i` (as `get_file_lock` leaves a
freshly inserted entry: `access_count = 1`). -/
def stale_lock_entry (i : Nat) : FileLockEntry := { last_used := i, access_count := 1 }

/-- 9999 distinct entries with `last_used = 0..9998`, in drain order. -/
def base_lock_map : LockMap :=
  (List.range 9999).map fun i => (lock_key_of_nat i, stale_lock_entry i)

/-! ## Basic filesystem lemmas -/

theorem Fs.write_apply (fs : Fs) (p : String) (c : Bytes) (q : String) :
    Fs.write fs p c q = if q = p then some c else fs q := rfl

theorem Fs.remove_apply (fs : Fs) (p q : String) :
    Fs.remove fs p q = if q = p then none else fs q := rfl

theorem Fs.appendTo_apply (fs : Fs) (p : String) (c : Bytes) (q : String) :
    Fs.appendTo fs p c q = if q = p then some (fs.read p ++ c) else fs q := rfl

/-! ## Merge engine: the chunk-copy loop -/

/-- Running the merge loop over indices `L` whose part files are all present
with pairwise-distinct paths, none clashing with the temp merge file:
the loop succeeds, the temp merge file accumulates the contents in list
order, every consumed part is deleted, and no other path changes. -/
theorem mergeGo_ok (td fn : String) (rel : Option String) (tmp : String) (c : Nat → Bytes)
    (L : List Nat) :
    ∀ (fs : Fs) (size : Nat) (t0 : Bytes),
      fs tmp = some t0 →
      (∀ i ∈ L, fs (chunk_filepath td fn rel i) = some (c i)) →
      (∀ i ∈ L, chunk_filepath td fn rel i ≠ tmp) →
      L.Pairwise (fun i j => chunk_filepath td fn rel i ≠ chunk_filepath td fn rel j) →
      ∃ fs2, mergeGo td fn rel tmp L fs size =
          MergeResult.ok fs2 (size + (L.map fun i => (c i).length).sum) ∧
        fs2 tmp = some (t0 ++ (L.map c).flatten) ∧
        (∀ i ∈ L, fs2 (chunk_filepath td fn rel i) = none) ∧
        (∀ p, p ≠ tmp → (∀ i ∈ L, p ≠ chunk_filepath td fn rel i) → fs2 p = fs p) := by
  induction L with
  | nil =>
    intro fs size t0 htmp _ _ _
    exact ⟨fs, by simp [mergeGo], by simpa using htmp, by simp, fun p _ _ => rfl⟩
  | cons i rest ih =>
    intro fs size t0 htmp hpres hnt hpw
    have hcpi : fs (chunk_filepath td fn rel i) = some (c i) :=
      hpres i (List.mem_cons_self i rest)
    have hnti : chunk_filepath td fn rel i ≠ tmp := hnt i (List.mem_cons_self i rest)
    obtain ⟨hhead, htail⟩ := List.pairwise_cons.mp hpw
    set fs1 : Fs := (fs.appendTo tmp (c i)).remove (chunk_filepath td fn rel i) with hfs1
    have hstep : mergeGo td fn rel tmp (i :: rest) fs size =
        mergeGo td fn rel tmp rest fs1 (size + (c i).length) := by
      simp [mergeGo, hcpi, hfs1]
    have htmp1 : fs1 tmp = some (t0 ++ c i) := by
      simp [hfs1, Fs.remove_apply, Fs.appendTo_apply, Ne.symm hnti, Fs.read, htmp]
    have hpres1 : ∀ j ∈ rest, fs1 (chunk_filepath td fn rel j) = some (c j) := by
      intro j hj
      have hji : chunk_filepath td fn rel j ≠ chunk_filepath td fn rel i :=
        Ne.symm (hhead j hj)
      have hjt : chunk_filepath td fn rel j ≠ tmp := hnt j (List.mem_cons_of_mem i hj)
      simp [hfs1, Fs.remove_apply, Fs.appendTo_apply, hji, hjt]
      exact hpres j (List.mem_cons_of_mem i hj)
    have hnt1 : ∀ j ∈ rest, chunk_filepath td fn rel j ≠ tmp :=
      fun j hj => hnt j (List.mem_cons_of_mem i hj)
    obtain ⟨fs2, heq, htmp2, hnone2, hframe2⟩ :=
      ih fs1 (size + (c i).length) (t0 ++ c i) htmp1 hpres1 hnt1 htail
    refine ⟨fs2, ?_, ?_, ?_, ?_⟩
    · rw [hstep, heq]
      simp [Nat.add_assoc]
    · rw [htmp2]
      simp
    · intro j hj
      rcases List.mem_cons.mp hj with hji | hjr
      · subst hji
        have hfrm : fs2 (chunk_filepath td fn rel j) = fs1 (chunk_filepath td fn rel j) :=
          hframe2 _ (hnt j (List.mem_cons_self j rest)) (fun k hk => hhead k hk)
        rw [hfrm]
        simp [hfs1, Fs.remove_apply]
      · exact hnone2 j hjr
    · intro p hpt hpc
      have h1 : fs2 p = fs1 p :=
        hframe2 p hpt (fun k hk => hpc k (List.mem_cons_of_mem i hk))
      rw [h1]
      simp [hfs1, Fs.remove_apply, Fs.appendTo_apply, hpt, hpc i (List.mem_cons_self i rest)]

/-- Running the merge loop over `L1 ++ i0 :: L2` where every part in `L1` is
present (with distinct paths, none clashing with the temp file) and the part
for `i0` is absent: the loop aborts naming `i0`, the temp merge file is
deleted, the parts of `L1` are consumed, and no other path changes. -/
theorem mergeGo_missing (td fn : String) (rel : Option String) (tmp : String) (c : Nat → Bytes)
    (L1 : List Nat) (i0 : Nat) (L2 : List Nat) :
    ∀ (fs : Fs) (size : Nat),
      (∀ i ∈ L1, fs (chunk_filepath td fn rel i) = some (c i)) →
      fs (chunk_filepath td fn rel i0) = none →
      (∀ i ∈ L1, chunk_filepath td fn rel i ≠ tmp) →
      chunk_filepath td fn rel i0 ≠ tmp →
      (∀ i ∈ L1, chunk_filepath td fn rel i0 ≠ chunk_filepath td fn rel i) →
      L1.Pairwise (fun i j => chunk_filepath td fn rel i ≠ chunk_filepath td fn rel j) →
      ∃ fs2, mergeGo td fn rel tmp (L1 ++ i0 :: L2) fs size = MergeResult.missingChunk i0 fs2 ∧
        fs2 tmp = none ∧
        (∀ i ∈ L1, fs2 (chunk_filepath td fn rel i) = none) ∧
        (∀ p, p ≠ tmp → (∀ i ∈ L1, p ≠ chunk_filepath td fn rel i) → fs2 p = fs p) := by
  induction L1 with
  | nil =>
    intro fs size _ hmiss _ _ _ _
    refine ⟨fs.remove tmp, by simp [mergeGo, hmiss], by simp [Fs.remove_apply], by simp, ?_⟩
    intro p hpt _
    simp [Fs.remove_apply, hpt]
  | cons i rest ih =>
    intro fs size hpres hmiss hnt hnt0 hne0 hpw
    have hcpi : fs (chunk_filepath td fn rel i) = some (c i) :=
      hpres i (List.mem_cons_self i rest)
    have hnti : chunk_filepath td fn rel i ≠ tmp := hnt i (List.mem_cons_self i rest)
    obtain ⟨hhead, htail⟩ := List.pairwise_cons.mp hpw
    set fs1 : Fs := (fs.appendTo tmp (c i)).remove (chunk_filepath td fn rel i) with hfs1
    have hstep : mergeGo td fn rel tmp (i :: (rest ++ i0 :: L2)) fs size =
        mergeGo td fn rel tmp (rest ++ i0 :: L2) fs1 (size + (c i).length) := by
      simp [mergeGo, hcpi, hfs1]
    have hpres1 : ∀ j ∈ rest, fs1 (chunk_filepath td fn rel j) = some (c j) := by
      intro j hj
      have hji : chunk_filepath td fn rel j ≠ chunk_filepath td fn rel i :=
        Ne.symm (hhead j hj)
      have hjt : chunk_filepath td fn rel j ≠ tmp := hnt j (List.mem_cons_of_mem i hj)
      simp [hfs1, Fs.remove_apply, Fs.appendTo_apply, hji, hjt]
      exact hpres j (List.mem_cons_of_mem i hj)
    have hmiss1 : fs1 (chunk_filepath td fn rel i0) = none := by
      simp [hfs1, Fs.remove_apply, Fs.appendTo_apply, hne0 i (List.mem_cons_self i rest), hnt0,
        hmiss]
    have hnt1 : ∀ j ∈ rest, chunk_filepath td fn rel j ≠ tmp :=
      fun j hj => hnt j (List.mem_cons_of_mem i hj)
    have hne1 : ∀ j ∈ rest, chunk_filepath td fn rel i0 ≠ chunk_filepath td fn rel j :=
      fun j hj => hne0 j (List.mem_cons_of_mem i hj)
    obtain ⟨fs2, heq, htmp2, hnone2, hframe2⟩ :=
      ih fs1 (size + (c i).length) hpres1 hmiss1 hnt1 hnt0 hne1 htail
    refine ⟨fs2, ?_, htmp2, ?_, ?_⟩
    · rw [show (i :: rest) ++ i0 :: L2 = i :: (rest ++ i0 :: L2) from rfl, hstep]
      exact heq
    · intro j hj
      rcases List.mem_cons.mp hj with hji | hjr
      · subst hji
        have hfrm : fs2 (chunk_filepath td fn rel j) = fs1 (chunk_filepath td fn rel j) :=
          hframe2 _ (hnt j (List.mem_cons_self j rest)) (fun k hk => hhead k hk)
        rw [hfrm]
        simp [hfs1, Fs.remove_apply]
      · exact hnone2 j hjr
    · intro p hpt hpc
      have h1 : fs2 p = fs1 p :=
        hframe2 p hpt (fun k hk => hpc k (List.mem_cons_of_mem i hk))
      rw [h1]
      simp [hfs1, Fs.remove_apply, Fs.appendTo_apply, hpt, hpc i (List.mem_cons_self i rest)]

/-- Unfolding of `merge_chunks_internal` into the chunk loop plus rename. -/
theorem merge_chunks_internal_eq (final_path temp_dir filename : String) (rel : Option String)
    (n : Nat) (tok : String) (fs : Fs) :
    merge_chunks_internal final_path temp_dir filename rel n tok fs =
      match mergeGo temp_dir filename rel (final_path ++ ".tmp." ++ tok) (List.range n)
          (fs.write (final_path ++ ".tmp." ++ tok) []) 0 with
      | .missingChunk i fs2 => .missingChunk i fs2
      | .ok fs2 size => .ok (fs2.rename (final_path ++ ".tmp." ++ tok) final_path) size := rfl

/-- C1.  A successful merge with declared `total_chunks = n` produces, at the
destination path, exactly the concatenation of the contents of the part files
for indices `0..n-1` in ascending index order.  The part store is keyed by
chunk index, not by upload order, so the result is independent of the order
the parts were uploaded in.  Hypotheses: every part is present, and the part
paths are pairwise distinct and distinct from the temp merge path (which is
how the real path scheme behaves: the index is embedded in the name). -/
theorem merge_result_is_ordered_concat
    (final_path temp_dir filename : String) (rel : Option String) (n : Nat)
    (tmp_token : String) (c : Nat → Bytes) (fs : Fs)
    (hpres : ∀ i < n, fs (chunk_filepath temp_dir filename rel i) = some (c i))
    (hnt : ∀ i < n, chunk_filepath temp_dir filename rel i ≠ final_path ++ ".tmp." ++ tmp_token)
    (hinj : ∀ i < n, ∀ j < n, i ≠ j →
      chunk_filepath temp_dir filename rel i ≠ chunk_filepath temp_dir filename rel j) :
    ∃ fs2, merge_chunks_internal final_path temp_dir filename rel n tmp_token fs =
        MergeResult.ok fs2 (((List.range n).map fun i => (c i).length).sum) ∧
      fs2 final_path = some ((List.range n).map c).flatten := by
  set tmp := final_path ++ ".tmp." ++ tmp_token with htmpdef
  have htmp0 : (fs.write tmp []) tmp = some [] := by simp [Fs.write_apply]
  have hpres0 : ∀ i ∈ List.range n,
      (fs.write tmp []) (chunk_filepath temp_dir filename rel i) = some (c i) := by
    intro i hi
    have hilt := List.mem_range.mp hi
    simp [Fs.write_apply, hnt i hilt]
    exact hpres i hilt
  have hnt0 : ∀ i ∈ List.range n, chunk_filepath temp_dir filename rel i ≠ tmp :=
    fun i hi => hnt i (List.mem_range.mp hi)
  have hpw : (List.range n).Pairwise
      (fun i j => chunk_filepath temp_dir filename rel i ≠ chunk_filepath temp_dir filename rel j) :=
    (List.pairwise_lt_range n).imp_of_mem
      (fun ha hb hlt => hinj _ (List.mem_range.mp ha) _ (List.mem_range.mp hb) (Nat.ne_of_lt hlt))
  obtain ⟨fs2, heq, htmp2, _, _⟩ :=
    mergeGo_ok temp_dir filename rel tmp c (List.range n) (fs.write tmp []) 0 []
      htmp0 hpres0 hnt0 hpw
  refine ⟨fs2.rename tmp final_path, ?_, ?_⟩
  · rw [merge_chunks_internal_eq, ← htmpdef, heq]
    simp
  · simp only [List.nil_append] at htmp2
    simp [Fs.rename, htmp2, Fs.write_apply]

/-- C1 witness: three parts `b"AA"`, `b"BB"`, `b"CC"` at indices 0, 1, 2 merge
to exactly `b"AABBCC"` with 6 bytes merged. -/
theorem merge_result_is_ordered_concat_witness :
    ∃ fs2, merge_chunks_internal "./uploads/m/f.bin" "./temp/m" "f.bin" none 3 "tok1"
        (((Fs.empty.write (chunk_filepath "./temp/m" "f.bin" none 0) [65, 65]).write
            (chunk_filepath "./temp/m" "f.bin" none 1) [66, 66]).write
          (chunk_filepath "./temp/m" "f.bin" none 2) [67, 67]) =
      MergeResult.ok fs2 6 ∧
    fs2 "./uploads/m/f.bin" = some [65, 65, 66, 66, 67, 67] := by
  obtain ⟨fs2, h1, h2⟩ := merge_result_is_ordered_concat "./uploads/m/f.bin" "./temp/m" "f.bin"
    none 3 "tok1" (fun i => if i = 0 then [65, 65] else if i = 1 then [66, 66] else [67, 67])
    (((Fs.empty.write (chunk_filepath "./temp/m" "f.bin" none 0) [65, 65]).write
        (chunk_filepath "./temp/m" "f.bin" none 1) [66, 66]).write
      (chunk_filepath "./temp/m" "f.bin" none 2) [67, 67])
    (by decide) (by decide) (by decide)
  refine ⟨fs2, ?_, ?_⟩
  · rw [h1]
    norm_num [List.range_succ]
  · rw [h2]
    norm_num [List.range_succ]

/-- C2.  If the part for index `i0 < n` is absent while all parts before it
are present (so `i0` is the first index the loop misses), the merge aborts
with an error naming `i0`, the temp merge file is deleted, the destination
path is left untouched, the already-consumed parts `0..i0-1` are deleted, and
the parts at indices `i0..n-1` are untouched. -/
theorem merge_missing_chunk_aborts
    (final_path temp_dir filename : String) (rel : Option String) (n : Nat)
    (tmp_token : String) (c : Nat → Bytes) (fs : Fs) (i0 : Nat)
    (hi0 : i0 < n)
    (hmiss : fs (chunk_filepath temp_dir filename rel i0) = none)
    (hpres : ∀ i < i0, fs (chunk_filepath temp_dir filename rel i) = some (c i))
    (hnt : ∀ i < n, chunk_filepath temp_dir filename rel i ≠ final_path ++ ".tmp." ++ tmp_token)
    (hinj : ∀ i < n, ∀ j < n, i ≠ j →
      chunk_filepath temp_dir filename rel i ≠ chunk_filepath temp_dir filename rel j)
    (hfin_tmp : final_path ≠ final_path ++ ".tmp." ++ tmp_token)
    (hfin_cp : ∀ i < n, final_path ≠ chunk_filepath temp_dir filename rel i) :
    ∃ fs2, merge_chunks_internal final_path temp_dir filename rel n tmp_token fs =
        MergeResult.missingChunk i0 fs2 ∧
      fs2 final_path = fs final_path ∧
      fs2 (final_path ++ ".tmp." ++ tmp_token) = none ∧
      (∀ j < i0, fs2 (chunk_filepath temp_dir filename rel j) = none) ∧
      (∀ i, i0 ≤ i → i < n →
        fs2 (chunk_filepath temp_dir filename rel i) = fs (chunk_filepath temp_dir filename rel i)) := by
  set tmp := final_path ++ ".tmp." ++ tmp_token with htmpdef
  have hdecomp : List.range n =
      List.range i0 ++ i0 :: ((List.range (n - i0 - 1)).map fun k => i0 + (k + 1)) := by
    calc List.range n = List.range (i0 + (n - i0)) := by rw [Nat.add_sub_cancel' hi0.le]
      _ = List.range i0 ++ (List.range (n - i0)).map (i0 + ·) := List.range_add i0 (n - i0)
      _ = List.range i0 ++ i0 :: ((List.range (n - i0 - 1)).map fun k => i0 + (k + 1)) := by
          rw [show n - i0 = (n - i0 - 1) + 1 from
            (Nat.succ_pred_eq_of_pos (Nat.sub_pos_of_lt hi0)).symm]
          rw [List.range_succ_eq_map]
          simp [List.map_map, Function.comp_def]
  have hpres0 : ∀ i ∈ List.range i0,
      (fs.write tmp []) (chunk_filepath temp_dir filename rel i) = some (c i) := by
    intro i hi
    have hilt := List.mem_range.mp hi
    simp [Fs.write_apply, hnt i (hilt.trans hi0)]
    exact hpres i hilt
  have hmiss0 : (fs.write tmp []) (chunk_filepath temp_dir filename rel i0) = none := by
    simp [Fs.write_apply, hnt i0 hi0]
    exact hmiss
  have hnt1 : ∀ i ∈ List.range i0, chunk_filepath temp_dir filename rel i ≠ tmp :=
    fun i hi => hnt i ((List.mem_range.mp hi).trans hi0)
  have hne0 : ∀ i ∈ List.range i0,
      chunk_filepath temp_dir filename rel i0 ≠ chunk_filepath temp_dir filename rel i := by
    intro i hi
    have hilt := List.mem_range.mp hi
    exact hinj i0 hi0 i (hilt.trans hi0) (Nat.ne_of_gt hilt)
  have hpw : (List.range i0).Pairwise
      (fun i j => chunk_filepath temp_dir filename rel i ≠ chunk_filepath temp_dir filename rel j) :=
    (List.pairwise_lt_range i0).imp_of_mem
      (fun ha hb hlt => hinj _ ((List.mem_range.mp ha).trans hi0) _
        ((List.mem_range.mp hb).trans hi0) (Nat.ne_of_lt hlt))
  obtain ⟨fs2, heq, htmp2, hnone2, hframe2⟩ :=
    mergeGo_missing temp_dir filename rel tmp c (List.range i0) i0
      ((List.range (n - i0 - 1)).map fun k => i0 + (k + 1)) (fs.write tmp []) 0
      hpres0 hmiss0 hnt1 (hnt i0 hi0) hne0 hpw
  refine ⟨fs2, ?_, ?_, htmp2, ?_, ?_⟩
  · rw [merge_chunks_internal_eq, ← htmpdef, hdecomp, heq]
  · have h1 : fs2 final_path = (fs.write tmp []) final_path :=
      hframe2 final_path hfin_tmp
        (fun j hj => hfin_cp j ((List.mem_range.mp hj).trans hi0))
    rw [h1]
    simp [Fs.write_apply, hfin_tmp]
  · intro j hj
    exact hnone2 j (List.mem_range.mpr hj)
  · intro i hle hlt
    have h1 : fs2 (chunk_filepath temp_dir filename rel i) =
        (fs.write tmp []) (chunk_filepath temp_dir filename rel i) := by
      refine hframe2 _ (hnt i hlt) ?_
      intro j hj
      have hjlt := List.mem_range.mp hj
      exact hinj i hlt j (hjlt.trans hi0) (Nat.ne_of_gt (Nat.lt_of_lt_of_le hjlt hle))
    rw [h1]
    simp [Fs.write_apply, hnt i hlt]

/-- C2 witness: with parts 0 and 2 present but part 1 of 3 absent, the merge
fails naming index 1, the destination is not created, the temp file is gone,
part 0 was consumed and part 2 survives. -/
theorem merge_missing_chunk_aborts_witness :
    ∃ fs2, merge_chunks_internal "./uploads/m/f.bin" "./temp/m" "f.bin" none 3 "tok1"
        ((Fs.empty.write (chunk_filepath "./temp/m" "f.bin" none 0) [65, 65]).write
          (chunk_filepath "./temp/m" "f.bin" none 2) [67, 67]) =
      MergeResult.missingChunk 1 fs2 ∧
    fs2 "./uploads/m/f.bin" = none ∧
    fs2 ("./uploads/m/f.bin" ++ ".tmp." ++ "tok1") = none ∧
    fs2 (chunk_filepath "./temp/m" "f.bin" none 0) = none ∧
    fs2 (chunk_filepath "./temp/m" "f.bin" none 2) = some [67, 67] := by
  obtain ⟨fs2, h1, h2, h3, h4, h5⟩ := merge_missing_chunk_aborts "./uploads/m/f.bin" "./temp/m"
    "f.bin" none 3 "tok1" (fun _ => [65, 65])
    ((Fs.empty.write (chunk_filepath "./temp/m" "f.bin" none 0) [65, 65]).write
      (chunk_filepath "./temp/m" "f.bin" none 2) [67, 67])
    1 (by decide) (by decide) (by decide) (by decide) (by decide) (by decide) (by decide)
  refine ⟨fs2, h1, ?_, h3, ?_, ?_⟩
  · rw [h2]
    decide
  · exact h4 0 (by decide)
  · rw [h5 2 (by decide) (by decide)]
    decide

/-- C4.  Chunk writes are write-once: submitting an index whose part file is
absent writes it; a second submission of the same `(module, filename,
relative_path, chunk_index)` hits the existence short-circuit, answers
success with `next_chunk = chunk_number + 1`, and leaves the filesystem —
in particular the part file with the first submission's bytes — untouched. -/
theorem chunk_upload_idempotent
    (cn tc : Nat) (fn md : String) (rel : Option String) (ts : Option Nat) (mx : Nat)
    (b1 b2 : Bytes) (fs : Fs)
    (hname : is_valid_filename fn = true)
    (hsize : chunk_size_rejected ts mx = false)
    (hnew : fs (chunk_filepath ("./temp/" ++ md) fn rel cn) = none) :
    ((handle_chunk_upload cn tc fn md rel ts mx (some b1) fs).2)
        (chunk_filepath ("./temp/" ++ md) fn rel cn) = some b1 ∧
    handle_chunk_upload cn tc fn md rel ts mx (some b2)
        (handle_chunk_upload cn tc fn md rel ts mx (some b1) fs).2 =
      (ChunkOutcome.chunkAlreadyExists
        { success := true, message := "分块已存在", chunk_number := cn,
          total_chunks := tc, filename := fn, next_chunk := some (cn + 1) },
       (handle_chunk_upload cn tc fn md rel ts mx (some b1) fs).2) := by
  have hfst : (handle_chunk_upload cn tc fn md rel ts mx (some b1) fs).2 =
      fs.write (chunk_filepath ("./temp/" ++ md) fn rel cn) b1 := by
    simp [handle_chunk_upload, hname, hsize, hnew]
  constructor
  · rw [hfst]
    simp [Fs.write_apply]
  · rw [hfst]
    simp [handle_chunk_upload, hname, hsize, Fs.write_apply]

/-- C4 witness at a concrete double submission. -/
theorem chunk_upload_idempotent_witness :
    ((handle_chunk_upload 0 2 "a.png" "m" none none 100 (some [1, 2]) Fs.empty).2)
        (chunk_filepath "./temp/m" "a.png" none 0) = some [1, 2] ∧
    handle_chunk_upload 0 2 "a.png" "m" none none 100 (some [9])
        (handle_chunk_upload 0 2 "a.png" "m" none none 100 (some [1, 2]) Fs.empty).2 =
      (ChunkOutcome.chunkAlreadyExists
        { success := true, message := "分块已存在", chunk_number := 0,
          total_chunks := 2, filename := "a.png", next_chunk := some 1 },
       (handle_chunk_upload 0 2 "a.png" "m" none none 100 (some [1, 2]) Fs.empty).2) :=
  chunk_upload_idempotent 0 2 "a.png" "m" none none 100 [1, 2] [9] Fs.empty
    (by decide) (by decide) (by decide)

/-- C6 counterexample.  A chunk upload whose relative path is `"../x"` (a
parent-directory segment) and one whose filename is the absolute path
`"/etc/passwd"` are both accepted and written, not rejected: the handler only
tests the filename for the substrings `".."` and `"//"`. -/
theorem chunk_upload_traversal_not_rejected :
    (handle_chunk_upload 0 3 "a.png" "m" (some "../x") none 100 (some [1]) Fs.empty).1 =
      ChunkOutcome.uploaded
        { success := true, message := "分块上传成功", chunk_number := 0, total_chunks := 3,
          filename := "a.png", next_chunk := some 1 } ∧
    (handle_chunk_upload 0 3 "/etc/passwd" "m" none none 100 (some [1]) Fs.empty).1 =
      ChunkOutcome.uploaded
        { success := true, message := "分块上传成功", chunk_number := 0, total_chunks := 3,
          filename := "/etc/passwd", next_chunk := some 1 } := by
  exact ⟨by decide, by decide⟩

/-- C6 amended.  A chunk upload is rejected with a client error exactly when
the filename contains `".."` or `"//"`; on that rejection the filesystem is
untouched.  The relative path is never validated, and absolute-path markers
alone are not rejected (see the counterexample). -/
theorem chunk_upload_rejects_dotdot_filenames
    (cn tc : Nat) (fn md : String) (rel : Option String) (ts : Option Nat) (mx : Nat)
    (body : Option Bytes) (fs : Fs)
    (hbad : str_contains fn ".." = true ∨ str_contains fn "//" = true) :
    handle_chunk_upload cn tc fn md rel ts mx body fs = (ChunkOutcome.rejectedBadFilename, fs) := by
  have hv : is_valid_filename fn = false := by
    unfold is_valid_filename
    rcases hbad with h | h <;> simp [h]
  simp [handle_chunk_upload, hv]

/-- C6 amended, witness at the filename `"../evil"`. -/
theorem chunk_upload_rejects_dotdot_filenames_witness :
    handle_chunk_upload 0 1 "../evil" "m" none none 100 none Fs.empty =
      (ChunkOutcome.rejectedBadFilename, Fs.empty) :=
  chunk_upload_rejects_dotdot_filenames 0 1 "../evil" "m" none none 100 none Fs.empty
    (Or.inl (by decide))

/-- C7.  `handle_chunk_upload` never calls `UploadManager::update_progress`:
the progress map is unchanged by every chunk upload, and in particular after
a successful upload of chunk 0 of 1 for `("default", "a.bin")` starting from
an empty tracker, the progress query for that key answers not-found instead
of a snapshot. -/
theorem chunk_upload_never_updates_progress :
    (∀ (cn tc : Nat) (fn md : String) (rel : Option String) (ts : Option Nat) (mx : Nat)
        (body : Option Bytes) (sys : Sys),
      (handle_chunk_upload_sys cn tc fn md rel ts mx body sys).2.progresses = sys.progresses) ∧
    ((handle_chunk_upload_sys 0 1 "a.bin" "default" none none 100 (some [1, 2, 3])
        { fs := Fs.empty, progresses := fun _ => none }).1 =
      ChunkOutcome.uploaded
        { success := true, message := "分块上传成功", chunk_number := 0, total_chunks := 1,
          filename := "a.bin", next_chunk := none } ∧
      get_upload_progress "default" "a.bin"
        (handle_chunk_upload_sys 0 1 "a.bin" "default" none none 100 (some [1, 2, 3])
          { fs := Fs.empty, progresses := fun _ => none }).2.progresses = none) :=
  ⟨fun _ _ _ _ _ _ _ _ _ => rfl, by decide, rfl⟩

/-- C9.  In the `merge_chunks` handler the `ACTIVE_UPLOADS` counter is
incremented on entry but decremented only in the error arm: after a
successful merge it stays at `active + 1` instead of returning to `active`.
The chunk-upload handler is balanced on both paths. -/
theorem merge_counter_unbalanced_on_success (active : Nat) :
    merge_chunks_active_after active MergeOutcome.success = active + 1 ∧
    merge_chunks_active_after active MergeOutcome.failure = active ∧
    (∀ s : Bool, upload_chunk_active_after active s = active) :=
  ⟨rfl, by simp [merge_chunks_active_after], fun _ => rfl⟩

/-- C10.  The merge lock key and the progress key are both
`"{module}_{filename}"`, ignoring `relative_path`: two merge requests that
differ only in `relative_path` use the same lock key (hence serialize on the
same mutex) and the same progress key, and a successful merge of either
removes the progress entry that the progress query for that `(module,
filename)` reads — for both. -/
theorem merge_keys_ignore_relative_path
    (r1 r2 : ChunkUploadRequest) (tok : String) (sys sys2 : Sys) (sz : Nat)
    (hm : r1.module = r2.module) (hf : r1.filename = r2.filename) :
    merge_lock_key r1 = merge_lock_key r2 ∧
    merge_progress_key r1 = merge_progress_key r2 ∧
    (merge_chunk_files r1 tok sys = (MergeCall.ok sz, sys2) →
      get_upload_progress r2.module r2.filename sys2.progresses = none) := by
  refine ⟨by simp [merge_lock_key, hm, hf], by simp [merge_progress_key, hm, hf], ?_⟩
  intro hcall
  unfold merge_chunk_files at hcall
  cases hres : merge_chunks_internal (merge_final_filepath r1) ("./temp/" ++ r1.module)
      r1.filename r1.relative_path r1.total_chunks tok sys.fs with
  | missingChunk i fs2 =>
    rw [hres] at hcall
    simp at hcall
  | ok fs2 size =>
    rw [hres] at hcall
    obtain ⟨-, h2⟩ := Prod.mk.injEq .. |>.mp hcall
    subst h2
    simp [get_upload_progress, get_progress, remove_progress, merge_progress_key, hm, hf]

/-- C10 witness: a one-chunk merge under `relative_path = some "d"` succeeds
and clears the progress entry that the query for the sibling request with
`relative_path = none` reads. -/
theorem merge_keys_ignore_relative_path_witness :
    get_upload_progress "m" "f.bin"
      (merge_chunk_files
        { chunk_number := 0, total_chunks := 1, filename := "f.bin", module := "m",
          chunk_size := 0, relative_path := some "d", file_hash := none, chunk_hash := none }
        "tok1"
        { fs := Fs.empty.write (chunk_filepath "./temp/m" "f.bin" (some "d") 0) [7, 8],
          progresses := fun _ => none }).2.progresses = none := by
  have hfst : (merge_chunk_files
      { chunk_number := 0, total_chunks := 1, filename := "f.bin", module := "m",
        chunk_size := 0, relative_path := some "d", file_hash := none, chunk_hash := none }
      "tok1"
      { fs := Fs.empty.write (chunk_filepath "./temp/m" "f.bin" (some "d") 0) [7, 8],
        progresses := fun _ => none }).1 = MergeCall.ok 2 := by decide
  have h := merge_keys_ignore_relative_path
    { chunk_number := 0, total_chunks := 1, filename := "f.bin", module := "m",
      chunk_size := 0, relative_path := some "d", file_hash := none, chunk_hash := none }
    { chunk_number := 0, total_chunks := 1, filename := "f.bin", module := "m",
      chunk_size := 0, relative_path := none, file_hash := none, chunk_hash := none }
    "tok1"
    { fs := Fs.empty.write (chunk_filepath "./temp/m" "f.bin" (some "d") 0) [7, 8],
      progresses := fun _ => none }
    (merge_chunk_files
      { chunk_number := 0, total_chunks := 1, filename := "f.bin", module := "m",
        chunk_size := 0, relative_path := some "d", file_hash := none, chunk_hash := none }
      "tok1"
      { fs := Fs.empty.write (chunk_filepath "./temp/m" "f.bin" (some "d") 0) [7, 8],
        progresses := fun _ => none }).2
    2 rfl rfl
  exact h.2.2 (by rw [← hfst])

/-! ## Lock registry lemmas -/

theorem updateLock_length_le (k : String) (e : FileLockEntry) :
    ∀ l : LockMap, (updateLock k e l).length ≤ l.length + 1 := by
  intro l
  induction l with
  | nil => simp [updateLock]
  | cons x rest ih =>
    by_cases h : x.1 = k
    · simp [updateLock, h]
    · simpa [updateLock, h] using Nat.succ_le_succ ih

theorem updateLock_absent (k : String) (e : FileLockEntry) :
    ∀ l : LockMap, lookupLock k l = none → updateLock k e l = l ++ [(k, e)] := by
  intro l
  induction l with
  | nil => intro _; rfl
  | cons x rest ih =>
    intro h
    by_cases hx : x.1 = k
    · simp [lookupLock, hx] at h
    · simp [lookupLock, hx] at h
      simp [updateLock, hx, ih h]

theorem lookupLock_append_of_none (k : String) (l1 l2 : LockMap)
    (h : lookupLock k l1 = none) : lookupLock k (l1 ++ l2) = lookupLock k l2 := by
  induction l1 with
  | nil => rfl
  | cons x rest ih =>
    by_cases hx : x.1 = k
    · simp [lookupLock, hx] at h
    · simp [lookupLock, hx] at h ⊢
      exact ih h

theorem lock_key_of_nat_ne (i : Nat) (s : String) (hs : s.data.head? ≠ some 'k') :
    lock_key_of_nat i ≠ s :=
  fun h => hs (h ▸ rfl)

theorem lookupLock_keys_none (key : String) (hk : ∀ i : Nat, lock_key_of_nat i ≠ key) :
    ∀ l : List Nat,
      lookupLock key (l.map fun i => (lock_key_of_nat i, stale_lock_entry i)) = none := by
  intro l
  induction l with
  | nil => rfl
  | cons a rest ih => simp [lookupLock, hk a, ih]

theorem insertByLastUsed_front (x : String × FileLockEntry) (l : List (String × FileLockEntry))
    (h : ∀ y ∈ l, x.2.last_used < y.2.last_used) : insertByLastUsed x l = x :: l := by
  cases l with
  | nil => rfl
  | cons y ys => simp [insertByLastUsed, h y (List.mem_cons_self y ys)]

theorem sortByLastUsed_eq_self (l : List (String × FileLockEntry))
    (h : l.Pairwise fun a b => a.2.last_used < b.2.last_used) : sortByLastUsed l = l := by
  induction l with
  | nil => rfl
  | cons x xs ih =>
    obtain ⟨hx, hxs⟩ := List.pairwise_cons.mp h
    rw [sortByLastUsed, ih hxs, insertByLastUsed_front x xs hx]

theorem base_lock_map_snoc_pairwise :
    (base_lock_map ++ [(held_lock_key, stale_lock_entry 9999)]).Pairwise
      (fun a b => a.2.last_used < b.2.last_used) := by
  rw [List.pairwise_append]
  refine ⟨?_, by simp, ?_⟩
  · unfold base_lock_map
    rw [List.pairwise_map]
    exact (List.pairwise_lt_range 9999).imp (fun h => by simpa [stale_lock_entry] using h)
  · intro a ha b hb
    obtain ⟨i, hi, rfl⟩ := List.mem_map.mp ha
    rw [List.mem_singleton] at hb
    subst hb
    simpa [stale_lock_entry] using List.mem_range.mp hi

theorem base_lock_map_length : base_lock_map.length = 9999 := by
  simp [base_lock_map]

theorem evict_locks_big :
    evict_locks (base_lock_map ++ [(held_lock_key, stale_lock_entry 9999)]) =
      (List.range 8000).map fun i => (lock_key_of_nat i, stale_lock_entry i) := by
  unfold evict_locks
  rw [sortByLastUsed_eq_self _ base_lock_map_snoc_pairwise]
  rw [List.take_append_of_le_length
    (by rw [base_lock_map_length]; norm_num [lock_retain_count, max_memory_locks])]
  unfold base_lock_map
  rw [← List.map_take, List.take_range]
  norm_num [lock_retain_count, max_memory_locks]

theorem get_file_lock_fills_registry :
    (get_file_lock held_lock_key 9999 base_lock_map).2 =
      base_lock_map ++ [(held_lock_key, stale_lock_entry 9999)] := by
  have hlen : ¬ (max_memory_locks ≤ base_lock_map.length) := by
    rw [base_lock_map_length]
    norm_num [max_memory_locks]
  have hlook : lookupLock held_lock_key base_lock_map = none :=
    lookupLock_keys_none _ (fun i => lock_key_of_nat_ne i _ (by decide)) _
  simp only [get_file_lock, if_neg hlen, hlook]
  exact updateLock_absent _ _ _ hlook

/-- C3.  On a full registry whose 10000 entries were last used at the
distinct instants 0..9999, the size-triggered eviction retains exactly the
8000 least-recently-used entries (`last_used` 0..7999) and discards the 2000
most-recently-used ones, including the newest: the code sorts ascending by
`last_used` and keeps the *first* 80% — the opposite of the claimed (and of
the source comment's) most-recently-used 80%. -/
theorem evict_locks_keeps_least_recently_used :
    evict_locks (base_lock_map ++ [(held_lock_key, stale_lock_entry 9999)]) =
      (List.range 8000).map (fun i => (lock_key_of_nat i, stale_lock_entry i)) ∧
    lookupLock held_lock_key (base_lock_map ++ [(held_lock_key, stale_lock_entry 9999)]) =
      some (stale_lock_entry 9999) ∧
    lookupLock held_lock_key
      (evict_locks (base_lock_map ++ [(held_lock_key, stale_lock_entry 9999)])) = none := by
  have hlookb : lookupLock held_lock_key base_lock_map = none :=
    lookupLock_keys_none _ (fun i => lock_key_of_nat_ne i _ (by decide)) _
  refine ⟨evict_locks_big, ?_, ?_⟩
  · rw [lookupLock_append_of_none _ _ _ hlookb]
    simp [lookupLock]
  · rw [evict_locks_big]
    exact lookupLock_keys_none _ (fun i => lock_key_of_nat_ne i _ (by decide)) _

/-- C5 amended.  After any `get_file_lock` call the registry holds at most
`max_memory_locks` entries; however, size-triggered eviction does not consult
lock holders, so it can drop the registry slot of a merge currently holding
its mutex (see the counterexample theorem) — the reference-counted handle the
merge already checked out stays valid, only the slot disappears. -/
theorem lock_registry_size_bounded (key : String) (now : Nat) (m : LockMap) :
    ((get_file_lock key now m).2).length ≤ max_memory_locks := by
  by_cases hc : max_memory_locks ≤ m.length
  · simp only [get_file_lock, if_pos hc]
    have h1 : (evict_locks m).length ≤ lock_retain_count := by
      rw [evict_locks, List.length_take]
      exact Nat.min_le_left _ _
    refine le_trans (updateLock_length_le _ _ _) ?_
    calc (evict_locks m).length + 1 ≤ lock_retain_count + 1 := Nat.succ_le_succ h1
      _ ≤ max_memory_locks := by norm_num [lock_retain_count, max_memory_locks]
  · simp only [get_file_lock, if_neg hc]
    refine le_trans (updateLock_length_le _ _ _) ?_
    exact Nat.succ_le_of_lt (lt_of_not_ge hc)

/-- C5 counterexample.  The merge for `("m", "f")` fetches its lock at
instant 9999 (making its entry the most recently used of 10000) and holds it;
the next `get_file_lock` call, for a fresh key at instant 10000, triggers
eviction and removes the held merge's registry entry. -/
theorem lock_eviction_removes_held_merge_lock :
    lookupLock held_lock_key ((get_file_lock held_lock_key 9999 base_lock_map).2) =
      some (stale_lock_entry 9999) ∧
    lookupLock held_lock_key
      ((get_file_lock "newkey" 10000 ((get_file_lock held_lock_key 9999 base_lock_map).2)).2) =
      none := by
  have hlookb : lookupLock held_lock_key base_lock_map = none :=
    lookupLock_keys_none _ (fun i => lock_key_of_nat_ne i _ (by decide)) _
  constructor
  · rw [get_file_lock_fills_registry, lookupLock_append_of_none _ _ _ hlookb]
    simp [lookupLock]
  · rw [get_file_lock_fills_registry]
    have hlen2 : max_memory_locks ≤
        (base_lock_map ++ [(held_lock_key, stale_lock_entry 9999)]).length := by
      rw [List.length_append, base_lock_map_length]
      norm_num [max_memory_locks]
    have hlooknew : lookupLock "newkey"
        (evict_locks (base_lock_map ++ [(held_lock_key, stale_lock_entry 9999)])) = none := by
      rw [evict_locks_big]
      exact lookupLock_keys_none _ (fun i => lock_key_of_nat_ne i _ (by decide)) _
    simp only [get_file_lock, if_pos hlen2, hlooknew, Option.getD_none]
    rw [updateLock_absent _ _ _ hlooknew]
    rw [lookupLock_append_of_none _ _ _
      (by rw [evict_locks_big]
          exact lookupLock_keys_none _ (fun i => lock_key_of_nat_ne i _ (by decide)) _)]
    decide

/-! ## String matcher bridging lemmas -/

theorem leadMatch_iff (p : List Char) :
    ∀ l : List Char, leadMatch p l = true ↔ ∃ t, l = p ++ t := by
  induction p with
  | nil => intro l; simp [leadMatch]
  | cons a ps ih =>
    intro l
    cases l with
    | nil => simp [leadMatch]
    | cons c cs =>
      rw [leadMatch, Bool.and_eq_true, beq_iff_eq, ih cs]
      constructor
      · rintro ⟨rfl, t, rfl⟩
        exact ⟨t, rfl⟩
      · rintro ⟨t, heq⟩
        rw [List.cons_append] at heq
        obtain ⟨h1, h2⟩ := List.cons.injEq .. |>.mp heq
        exact ⟨h1.symm, t, h2⟩

theorem hasSub_iff (p : List Char) :
    ∀ l : List Char, hasSub p l = true ↔ ∃ u v, l = u ++ p ++ v := by
  intro l
  induction l with
  | nil =>
    simp only [hasSub, List.isEmpty_iff]
    constructor
    · rintro rfl
      exact ⟨[], [], rfl⟩
    · rintro ⟨u, v, huv⟩
      rcases List.append_eq_nil.mp (List.append_eq_nil.mp huv.symm |>.1) with ⟨-, h⟩
      exact h
  | cons c cs ih =>
    rw [hasSub, Bool.or_eq_true, leadMatch_iff, ih]
    constructor
    · rintro (⟨t, ht⟩ | ⟨u, v, hv⟩)
      · exact ⟨[], t, by simpa using ht⟩
      · exact ⟨c :: u, v, by simp [hv]⟩
    · rintro ⟨u, v, huv⟩
      cases u with
      | nil =>
        exact Or.inl ⟨v, by simpa using huv⟩
      | cons c2 u2 =>
        rw [List.cons_append, List.cons_append] at huv
        obtain ⟨-, h2⟩ := List.cons.injEq .. |>.mp huv
        exact Or.inr ⟨u2, v, h2⟩

/-- A true `str::ends_with` implies a true `str::contains` for the same
pattern (a suffix is in particular a substring). -/
theorem str_ends_with_contains (s pat : String)
    (h : str_ends_with s pat = true) : str_contains s pat = true := by
  rw [str_ends_with, leadMatch_iff] at h
  obtain ⟨t, ht⟩ := h
  have hs : s.toList = t.reverse ++ pat.toList := by
    have h2 := congrArg List.reverse ht
    simpa using h2
  rw [str_contains, hasSub_iff]
  exact ⟨t.reverse, [], by simpa [String.toList] using hs⟩

/-- C8 counterexample.  The file name `"my.partner.jpg"` does not match the
part/temp-merge naming convention (no `.part{index}` suffix, no `".tmp."`
segment), but the janitor's substring test matches it, and a cleanup pass
deletes it once it is older than 24 hours (here 25 h), freeing its 7 bytes. -/
theorem cleanup_deletes_file_outside_naming_convention :
    spec_naming_convention "my.partner.jpg" = false ∧
    cleanup_should_delete { name := "my.partner.jpg", age_secs := 90000, size := 7 } = true ∧
    (cleanup_temp_files [{ name := "my.partner.jpg", age_secs := 90000, size := 7 }]).2 = [] ∧
    (cleanup_temp_files [{ name := "my.partner.jpg", age_secs := 90000, size := 7 }]).1 = (1, 7) :=
  ⟨by decide, by decide, by decide, by decide⟩

/-- C8 amended.  A cleanup pass deletes a file only when its age exceeds 24
hours *and* its name contains `".part"` or `".tmp."` as a substring (a test
wider than the `.part{index}` / `.tmp.{token}` naming convention, see the
counterexample); every file whose name contains neither substring survives
any pass unchanged, regardless of its age. -/
theorem cleanup_spares_files_without_part_or_tmp_substring
    (files : List TempFile) (f : TempFile)
    (hmem : f ∈ files)
    (hp : str_contains f.name ".part" = false)
    (ht : str_contains f.name ".tmp." = false) :
    cleanup_should_delete f = false ∧ f ∈ (cleanup_temp_files files).2 := by
  have he : str_ends_with f.name ".part" = false := by
    cases hew : str_ends_with f.name ".part" with
    | false => rfl
    | true => exact absurd (str_ends_with_contains _ _ hew) (by simp [hp])
  have hdel : cleanup_should_delete f = false := by
    simp [cleanup_should_delete, hp, ht, he]
  exact ⟨hdel, by simp [cleanup_temp_files, List.mem_filter, hmem, hdel]⟩

/-- C8 amended, witness: an unrelated 25-hour-old `"notes.txt"` survives the
pass. -/
theorem cleanup_spares_files_witness :
    cleanup_should_delete { name := "notes.txt", age_secs := 90000, size := 5 } = false ∧
    ({ name := "notes.txt", age_secs := 90000, size := 5 } : TempFile) ∈
      (cleanup_temp_files [{ name := "notes.txt", age_secs := 90000, size := 5 }]).2 :=
  cleanup_spares_files_without_part_or_tmp_substring
    [{ name := "notes.txt", age_secs := 90000, size := 5 }]
    { name := "notes.txt", age_secs := 90000, size := 5 }
    (List.mem_singleton.mpr rfl) (by decide) (by decide)

end ImageUploadBackend
